import Mathlib

/-!
Verification of the audio-cropper chunk/buffer editing core.

The JavaScript sources are shallowly embedded: times (seconds) are modelled
as rationals, sample values as real numbers, sample indices as naturals.
Chunk fields follow `chunk-manager.js` (`{start, end, id}`); `end` is a Lean
keyword, so the field is named `stop`.
-/

namespace AudioCropper

/-- A chunk `{start, end, id}` of the timeline (`chunk-manager.js`).
The JS field `end` is named `stop` here because `end` is a Lean keyword. -/
structure Chunk where
  start : ℚ
  stop : ℚ
  id : ℕ
deriving DecidableEq, Repr

/-- The callback of the `map` inside `ChunkManager.deleteTimeRange`
(`chunk-manager.js` lines 162-197): classifies one chunk against the deleted
range `[startTime, endTime)` and returns its replacement, or `none` for the
`null` marking a chunk that is entirely inside the deleted range. -/
def deleteChunk (startTime endTime : ℚ) (c : Chunk) : Option Chunk :=
  let deleteDuration := endTime - startTime
  if c.start ≥ endTime then
    some { c with start := c.start - deleteDuration, stop := c.stop - deleteDuration }
  else if c.stop ≤ startTime then
    some c
  else if c.start ≥ startTime ∧ c.stop ≤ endTime then
    none
  else if c.start < startTime ∧ c.stop > endTime then
    some { c with stop := c.stop - deleteDuration }
  else if c.start < startTime ∧ c.stop > startTime then
    some { c with stop := startTime }
  else if c.start < endTime ∧ c.stop > endTime then
    some { c with start := startTime, stop := c.stop - deleteDuration }
  else
    some c

/-- `ChunkManager.deleteTimeRange` restricted to its effect on the chunk
list: the JS `map` over `deleteChunk` followed by `filter(chunk => chunk
!== null)` is a `filterMap`. -/
def deleteTimeRange (chunks : List Chunk) (startTime endTime : ℚ) : List Chunk :=
  chunks.filterMap (deleteChunk startTime endTime)

/-- Total covered duration of a chunk list: the sum of `end - start`
(the reduce in `ChunkManager.selectChunkAtPosition` and
`createCombinedBuffer` compute the same sum). -/
def totalDuration (chunks : List Chunk) : ℚ :=
  (chunks.map (fun c => c.stop - c.start)).sum

/-- Length of the intersection of `[c.start, c.stop]` with the deleted range
`[s, e]`, clamped at `0`; used to account for how much duration
`deleteChunk` removes from one chunk. -/
def overlapWith (s e : ℚ) (c : Chunk) : ℚ :=
  max 0 (min c.stop e - max c.start s)

/-- Duration contributed by the survivor of `deleteChunk` (`0` when the chunk
is removed). -/
def survivorDuration (s e : ℚ) (c : Chunk) : ℚ :=
  (deleteChunk s e c).elim 0 fun c' => c'.stop - c'.start

theorem survivorDuration_eq (s e : ℚ) (c : Chunk) (hse : s ≤ e)
    (hc : c.start ≤ c.stop) :
    survivorDuration s e c = (c.stop - c.start) - overlapWith s e c := by
  unfold survivorDuration deleteChunk
  split_ifs with h1 h2 h3 h4 h5 h6
  · rcases min_cases c.stop e with ⟨hm, hm2⟩ | ⟨hm, hm2⟩ <;>
      rcases max_cases c.start s with ⟨hM, hM2⟩ | ⟨hM, hM2⟩ <;>
      rcases max_cases (0 : ℚ) (min c.stop e - max c.start s) with ⟨hz, hz2⟩ | ⟨hz, hz2⟩ <;>
      simp only [Option.elim, overlapWith] <;> linarith
  · rcases min_cases c.stop e with ⟨hm, hm2⟩ | ⟨hm, hm2⟩ <;>
      rcases max_cases c.start s with ⟨hM, hM2⟩ | ⟨hM, hM2⟩ <;>
      rcases max_cases (0 : ℚ) (min c.stop e - max c.start s) with ⟨hz, hz2⟩ | ⟨hz, hz2⟩ <;>
      simp only [Option.elim, overlapWith] <;> linarith
  · obtain ⟨h3a, h3b⟩ := h3
    rcases min_cases c.stop e with ⟨hm, hm2⟩ | ⟨hm, hm2⟩ <;>
      rcases max_cases c.start s with ⟨hM, hM2⟩ | ⟨hM, hM2⟩ <;>
      rcases max_cases (0 : ℚ) (min c.stop e - max c.start s) with ⟨hz, hz2⟩ | ⟨hz, hz2⟩ <;>
      simp only [Option.elim, overlapWith] <;> linarith
  · obtain ⟨h4a, h4b⟩ := h4
    rcases min_cases c.stop e with ⟨hm, hm2⟩ | ⟨hm, hm2⟩ <;>
      rcases max_cases c.start s with ⟨hM, hM2⟩ | ⟨hM, hM2⟩ <;>
      rcases max_cases (0 : ℚ) (min c.stop e - max c.start s) with ⟨hz, hz2⟩ | ⟨hz, hz2⟩ <;>
      simp only [Option.elim, overlapWith] <;> linarith
  · obtain ⟨h5a, h5b⟩ := h5
    rcases not_and_or.mp h4 with h4' | h4'
    · exact absurd h5a h4'
    have h4e : c.stop ≤ e := le_of_not_lt h4'
    rcases min_cases c.stop e with ⟨hm, hm2⟩ | ⟨hm, hm2⟩ <;>
      rcases max_cases c.start s with ⟨hM, hM2⟩ | ⟨hM, hM2⟩ <;>
      rcases max_cases (0 : ℚ) (min c.stop e - max c.start s) with ⟨hz, hz2⟩ | ⟨hz, hz2⟩ <;>
      simp only [Option.elim, overlapWith] <;> linarith
  · obtain ⟨h6a, h6b⟩ := h6
    rcases not_and_or.mp h5 with h5' | h5'
    · have hstart : s ≤ c.start := le_of_not_lt h5'
      rcases min_cases c.stop e with ⟨hm, hm2⟩ | ⟨hm, hm2⟩ <;>
        rcases max_cases c.start s with ⟨hM, hM2⟩ | ⟨hM, hM2⟩ <;>
        rcases max_cases (0 : ℚ) (min c.stop e - max c.start s) with ⟨hz, hz2⟩ | ⟨hz, hz2⟩ <;>
        simp only [Option.elim, overlapWith] <;> linarith
    · exact absurd (lt_of_le_of_lt hse h6b) h5'
  · exfalso
    have he1 : c.start < e := lt_of_not_ge h1
    have he2 : s < c.stop := lt_of_not_ge h2
    rcases not_and_or.mp h5 with h5' | h5'
    · have hstart : s ≤ c.start := le_of_not_lt h5'
      rcases not_and_or.mp h3 with h3' | h3'
      · exact h3' hstart
      · have hstop : e < c.stop := lt_of_not_ge h3'
        exact h6 ⟨he1, hstop⟩
    · exact h5' he2

theorem deleteTimeRange_totalDuration (chunks : List Chunk) (s e : ℚ)
    (hse : s ≤ e) (hwf : ∀ c ∈ chunks, c.start ≤ c.stop) :
    totalDuration (deleteTimeRange chunks s e) =
      totalDuration chunks - (chunks.map (overlapWith s e)).sum := by
  induction chunks with
  | nil => simp [deleteTimeRange, totalDuration]
  | cons c cs ih =>
    have hc : c.start ≤ c.stop := hwf c (List.mem_cons_self c cs)
    have ihc := ih fun x hx => hwf x (List.mem_cons_of_mem c hx)
    have hsd := survivorDuration_eq s e c hse hc
    unfold deleteTimeRange at ihc ⊢
    cases hdel : deleteChunk s e c with
    | none =>
      rw [List.filterMap_cons_none hdel]
      rw [survivorDuration, hdel] at hsd
      simp only [Option.elim] at hsd
      simp only [totalDuration, List.map_cons, List.sum_cons] at ihc ⊢
      rw [ihc]
      linarith
    | some c' =>
      rw [List.filterMap_cons_some hdel]
      rw [survivorDuration, hdel] at hsd
      simp only [Option.elim] at hsd
      simp only [totalDuration, List.map_cons, List.sum_cons] at ihc ⊢
      rw [ihc]
      linarith

theorem filterMap_map_id_sublist {α γ : Type} (f : α → Option α) (g : α → γ)
    (hf : ∀ a a', f a = some a' → g a' = g a) :
    ∀ l : List α, ((l.filterMap f).map g).Sublist (l.map g) := by
  intro l
  induction l with
  | nil => simp
  | cons a l ih =>
    cases hfa : f a with
    | none =>
      rw [List.filterMap_cons_none hfa, List.map_cons]
      exact ih.cons (g a)
    | some b =>
      rw [List.filterMap_cons_some hfa, List.map_cons, List.map_cons, hf a b hfa]
      exact ih.cons₂ (g a)

theorem deleteChunk_id (s e : ℚ) (c c' : Chunk) (h : deleteChunk s e c = some c') :
    c'.id = c.id := by
  unfold deleteChunk at h
  split_ifs at h
  all_goals (rw [Option.some_inj] at h; subst h; rfl)

/-- Evaluation of the C1 scenario: what `deleteTimeRange 2 5` actually
produces from `[{0,3},{3,10}]`. -/
theorem deleteTimeRange_scenario_eval :
    deleteTimeRange [⟨0, 3, 0⟩, ⟨3, 10, 1⟩] 2 5 = [⟨0, 2, 0⟩, ⟨2, 7, 1⟩] := by
  unfold deleteTimeRange
  rw [List.filterMap_cons, List.filterMap_cons, List.filterMap_nil]
  norm_num [deleteChunk]

/-- C1 counterexample: on the chunk list `[{0,3},{3,10}]`, `deleteTimeRange 2 5`
does NOT produce the chunks `{0,2},{2,8}` stated by the claim (the second
survivor ends at `7`, not `8`). -/
theorem deleteScenario_cex :
    (deleteTimeRange [⟨0, 3, 0⟩, ⟨3, 10, 1⟩] 2 5).map (fun c => (c.start, c.stop)) ≠
      [(0, 2), (2, 8)] := by
  rw [deleteTimeRange_scenario_eval]
  norm_num

/-- C1 (amended): starting from `[{0,3},{3,10}]`, `deleteTimeRange 2 5`
yields exactly the chunks `{0,2}` and `{2,7}`, with durations `2` and `5`
and total covered duration `7 = 10 - 3`. -/
theorem deleteScenario :
    deleteTimeRange [⟨0, 3, 0⟩, ⟨3, 10, 1⟩] 2 5 = [⟨0, 2, 0⟩, ⟨2, 7, 1⟩]
    ∧ ((deleteTimeRange [⟨0, 3, 0⟩, ⟨3, 10, 1⟩] 2 5).map fun c => c.stop - c.start) = [2, 5]
    ∧ totalDuration (deleteTimeRange [⟨0, 3, 0⟩, ⟨3, 10, 1⟩] 2 5) = 7 := by
  rw [deleteTimeRange_scenario_eval]
  norm_num [totalDuration]

/-- C2 counterexample: the delete shift invariant fails for an arbitrary chunk
list: deleting `[2,3)` from the single chunk `{0,1}` (which does not overlap
the range) removes no covered duration at all, not `3 - 2`. -/
theorem deleteShift_cex :
    (2 : ℚ) < 3 ∧
      totalDuration (deleteTimeRange [⟨0, 1, 0⟩] 2 3) ≠ totalDuration [⟨0, 1, 0⟩] - (3 - 2) := by
  unfold deleteTimeRange
  rw [List.filterMap_cons, List.filterMap_nil]
  norm_num [deleteChunk, totalDuration]

/-- C2 (amended): for every chunk list whose chunks are well formed
(`start ≤ end`) and whose overlaps with the delete range `[s,e]` sum to
exactly `e - s` (as they do for any non-overlapping list covering the range),
`deleteTimeRange s e` decreases the total covered duration by exactly `e - s`,
and the surviving chunks keep their relative order (their ids form a sublist
of the original ids). -/
theorem deleteShiftInvariant (chunks : List Chunk) (s e : ℚ) (hse : s ≤ e)
    (hwf : ∀ c ∈ chunks, c.start ≤ c.stop)
    (hcov : (chunks.map (overlapWith s e)).sum = e - s) :
    totalDuration (deleteTimeRange chunks s e) = totalDuration chunks - (e - s)
    ∧ ((deleteTimeRange chunks s e).map Chunk.id).Sublist (chunks.map Chunk.id) := by
  refine ⟨?_, ?_⟩
  · rw [deleteTimeRange_totalDuration chunks s e hse hwf, hcov]
  · exact filterMap_map_id_sublist _ _ (fun a a' h => deleteChunk_id s e a a' h) chunks

/-- C2 witness: the amended invariant applied to the concrete list
`[{0,3},{3,10}]` with delete range `[2,5]`. -/
theorem deleteShiftInvariant_witness :
    ((2 : ℚ) ≤ 5
      ∧ (∀ c ∈ [Chunk.mk 0 3 0, Chunk.mk 3 10 1], c.start ≤ c.stop)
      ∧ ([Chunk.mk 0 3 0, Chunk.mk 3 10 1].map (overlapWith 2 5)).sum = 5 - 2)
    ∧ (totalDuration (deleteTimeRange [Chunk.mk 0 3 0, Chunk.mk 3 10 1] 2 5) =
          totalDuration [Chunk.mk 0 3 0, Chunk.mk 3 10 1] - (5 - 2)
        ∧ ((deleteTimeRange [Chunk.mk 0 3 0, Chunk.mk 3 10 1] 2 5).map Chunk.id).Sublist
            ([Chunk.mk 0 3 0, Chunk.mk 3 10 1].map Chunk.id)) :=
  ⟨⟨by norm_num, by intro c hc; fin_cases hc <;> norm_num,
      by norm_num [overlapWith, min_def, max_def]⟩,
    deleteShiftInvariant [Chunk.mk 0 3 0, Chunk.mk 3 10 1] 2 5 (by norm_num)
      (by intro c hc; fin_cases hc <;> norm_num)
      (by norm_num [overlapWith, min_def, max_def])⟩

/-- The mutable fields of `ChunkManager` that `splitAtPosition` touches
(`chunk-manager.js` constructor): the chunk list, the selected chunk and the
`nextChunkId` counter. -/
structure ChunkManagerState where
  chunks : List Chunk
  selectedChunk : Option Chunk
  nextChunkId : ℕ
deriving DecidableEq, Repr

/-- The `findIndex` + `splice(chunkIndex, 1, leftChunk, rightChunk)` of
`ChunkManager.splitAtPosition` fused into one traversal: walk the list for
the first chunk with `start < splitTime < end`; if found, replace it by the
two halves carrying ids `nid` and `nid + 1`; `none` models `findIndex`
returning `-1`. -/
def splitChunks (splitTime : ℚ) (nid : ℕ) : List Chunk → Option (List Chunk)
  | [] => none
  | c :: cs =>
    if c.start < splitTime ∧ splitTime < c.stop then
      some (⟨c.start, splitTime, nid⟩ :: ⟨splitTime, c.stop, nid + 1⟩ :: cs)
    else
      (splitChunks splitTime nid cs).map fun l => c :: l

/-- `ChunkManager.splitAtPosition` (`chunk-manager.js` lines 30-63): returns
the JS boolean result together with the updated manager state.  On failure
(`findIndex === -1`) the state is returned unchanged; on success the found
chunk is replaced in place, the selection is cleared and the id counter has
been bumped twice. -/
def splitAtPosition (st : ChunkManagerState) (splitTime : ℚ) : Bool × ChunkManagerState :=
  match splitChunks splitTime st.nextChunkId st.chunks with
  | none => (false, st)
  | some newChunks =>
    (true, { chunks := newChunks, selectedChunk := none, nextChunkId := st.nextChunkId + 2 })

theorem splitChunks_none_iff (t : ℚ) (nid : ℕ) (cs : List Chunk) :
    splitChunks t nid cs = none ↔ ∀ c ∈ cs, ¬(c.start < t ∧ t < c.stop) := by
  induction cs with
  | nil => simp [splitChunks]
  | cons c cs ih =>
    by_cases hc : c.start < t ∧ t < c.stop
    · simp [splitChunks, hc]
    · cases hsc : splitChunks t nid cs with
      | none =>
        have hall := ih.mp hsc
        simp only [splitChunks, if_neg hc, hsc, Option.map_none']
        constructor
        · intro _ x hx
          rcases List.mem_cons.mp hx with rfl | hx'
          · exact hc
          · exact hall x hx'
        · intro _
          trivial
      | some l' =>
        simp only [splitChunks, if_neg hc, hsc, Option.map_some']
        constructor
        · intro h
          exact absurd h (by simp)
        · intro h
          have hnone : splitChunks t nid cs = none :=
            ih.mpr fun x hx => h x (List.mem_cons_of_mem c hx)
          rw [hsc] at hnone
          exact absurd hnone (by simp)

theorem splitChunks_some (t : ℚ) (nid : ℕ) (cs : List Chunk) (l : List Chunk)
    (h : splitChunks t nid cs = some l) :
    ∃ i : ℕ, ∃ hi : i < cs.length,
      ((cs.get ⟨i, hi⟩).start < t ∧ t < (cs.get ⟨i, hi⟩).stop)
      ∧ (∀ j : ℕ, ∀ hj : j < cs.length, j < i →
          ¬((cs.get ⟨j, hj⟩).start < t ∧ t < (cs.get ⟨j, hj⟩).stop))
      ∧ l = cs.take i
            ++ [⟨(cs.get ⟨i, hi⟩).start, t, nid⟩, ⟨t, (cs.get ⟨i, hi⟩).stop, nid + 1⟩]
            ++ cs.drop (i + 1) := by
  induction cs generalizing l with
  | nil => exact absurd h (by simp [splitChunks])
  | cons c cs ih =>
    by_cases hc : c.start < t ∧ t < c.stop
    · simp only [splitChunks, if_pos hc, Option.some_inj] at h
      refine ⟨0, Nat.succ_pos _, ?_, ?_, ?_⟩
      · simpa using hc
      · intro j hj hj0
        exact absurd hj0 (Nat.not_lt_zero j)
      · simpa using h.symm
    · cases hsc : splitChunks t nid cs with
      | none =>
        simp only [splitChunks, if_neg hc, hsc, Option.map_none'] at h
        exact absurd h (by simp)
      | some l' =>
        simp only [splitChunks, if_neg hc, hsc, Option.map_some', Option.some_inj] at h
        subst h
        obtain ⟨i, hi, hpred, hfirst, hshape⟩ := ih l' hsc
        refine ⟨i + 1, Nat.succ_lt_succ hi, ?_, ?_, ?_⟩
        · simpa using hpred
        · intro j hj hji
          cases j with
          | zero => simpa using hc
          | succ j' =>
            have hj' := hfirst j' (Nat.lt_of_succ_lt_succ hj) (Nat.lt_of_succ_lt_succ hji)
            simpa using hj'
        · simp only [List.take_succ_cons, List.drop_succ_cons, List.get_cons_succ,
            List.cons_append]
          rw [hshape]

/-- C3: `splitAtPosition t` succeeds exactly when some chunk satisfies
`start < t < end` (strict, so a boundary or outside position fails); on
failure it returns `false` and leaves the chunk list, the id counter and the
selected chunk unchanged; on success the first such chunk is replaced in
place by `{start, t, id1}` and `{t, end, id2}` where `id1 = nextChunkId` and
`id2 = nextChunkId + 1` are fresh strictly increasing ids, the counter moves
past both (`+2`, so they are never reused), and the selected chunk is
cleared. -/
theorem splitAtPosition_spec (st : ChunkManagerState) (t : ℚ) :
    ((splitAtPosition st t).1 = true ↔ ∃ c ∈ st.chunks, c.start < t ∧ t < c.stop)
    ∧ ((splitAtPosition st t).1 = false → (splitAtPosition st t).2 = st)
    ∧ ((splitAtPosition st t).1 = true →
        (splitAtPosition st t).2.selectedChunk = none
        ∧ (splitAtPosition st t).2.nextChunkId = st.nextChunkId + 2
        ∧ ∃ i : ℕ, ∃ hi : i < st.chunks.length,
            ((st.chunks.get ⟨i, hi⟩).start < t ∧ t < (st.chunks.get ⟨i, hi⟩).stop)
            ∧ (∀ j : ℕ, ∀ hj : j < st.chunks.length, j < i →
                ¬((st.chunks.get ⟨j, hj⟩).start < t ∧ t < (st.chunks.get ⟨j, hj⟩).stop))
            ∧ (splitAtPosition st t).2.chunks =
                st.chunks.take i
                  ++ [⟨(st.chunks.get ⟨i, hi⟩).start, t, st.nextChunkId⟩,
                      ⟨t, (st.chunks.get ⟨i, hi⟩).stop, st.nextChunkId + 1⟩]
                  ++ st.chunks.drop (i + 1)) := by
  cases hm : splitChunks t st.nextChunkId st.chunks with
  | none =>
    have hall := (splitChunks_none_iff t st.nextChunkId st.chunks).mp hm
    refine ⟨?_, ?_, ?_⟩
    · simp only [splitAtPosition, hm]
      constructor
      · intro hfalse
        exact absurd hfalse (by simp)
      · rintro ⟨c, hc, hct⟩
        exact absurd hct (hall c hc)
    · intro _
      simp [splitAtPosition, hm]
    · intro htrue
      simp only [splitAtPosition, hm] at htrue
      exact absurd htrue (by simp)
  | some l =>
    obtain ⟨i, hi, hpred, hfirst, hshape⟩ := splitChunks_some t st.nextChunkId st.chunks l hm
    refine ⟨?_, ?_, ?_⟩
    · constructor
      · intro _
        exact ⟨st.chunks.get ⟨i, hi⟩, st.chunks.get_mem _ _, hpred⟩
      · intro _
        simp [splitAtPosition, hm]
    · intro hfalse
      simp only [splitAtPosition, hm] at hfalse
      exact absurd hfalse (by simp)
    · intro _
      exact ⟨by simp [splitAtPosition, hm], by simp [splitAtPosition, hm],
        i, hi, hpred, hfirst, by simpa [splitAtPosition, hm] using hshape⟩

/-- Chunk-list well-formedness: every chunk satisfies `0 ≤ start < end`. -/
def ChunksWF (cs : List Chunk) : Prop :=
  ∀ c ∈ cs, 0 ≤ c.start ∧ c.start < c.stop

/-- Chunk-list ordering: increasing time order with pairwise non-overlapping
`[start, end)` intervals, i.e. each chunk ends no later than any later chunk
starts. -/
def ChunksOrdered (cs : List Chunk) : Prop :=
  cs.Pairwise fun a b => a.stop ≤ b.start

/-- Where a timeline point lands after `deleteTimeRange s e`: points at or
before `s` stay, points inside `[s, e]` collapse to `s`, points at or after
`e` shift left by `e - s`. -/
def shiftPoint (s e x : ℚ) : ℚ :=
  max (min x s) (x - (e - s))

theorem shiftPoint_mono (s e : ℚ) {x y : ℚ} (h : x ≤ y) :
    shiftPoint s e x ≤ shiftPoint s e y :=
  max_le_max (min_le_min_right _ h) (by linarith)

theorem shiftPoint_of_le {s x : ℚ} (e : ℚ) (h : x ≤ s) (hse : s ≤ e) :
    shiftPoint s e x = x := by
  unfold shiftPoint
  rw [min_eq_left h, max_eq_left (by linarith)]

theorem shiftPoint_of_mem {s e x : ℚ} (h1 : s ≤ x) (h2 : x ≤ e) :
    shiftPoint s e x = s := by
  unfold shiftPoint
  rw [min_eq_right h1, max_eq_left (by linarith)]

theorem shiftPoint_of_ge {s e x : ℚ} (h : e ≤ x) (hse : s ≤ e) :
    shiftPoint s e x = x - (e - s) := by
  unfold shiftPoint
  rw [min_eq_right (by linarith), max_eq_right (by linarith)]

theorem deleteChunk_endpoints (s e : ℚ) (c c' : Chunk) (hs : 0 ≤ s) (hse : s ≤ e)
    (hc0 : 0 ≤ c.start) (hc : c.start < c.stop)
    (h : deleteChunk s e c = some c') :
    c'.start = shiftPoint s e c.start ∧ c'.stop = shiftPoint s e c.stop
    ∧ 0 ≤ c'.start ∧ c'.start < c'.stop := by
  unfold deleteChunk at h
  split_ifs at h with h1 h2 h3 h4 h5 h6
  · rw [Option.some_inj] at h
    subst h
    exact ⟨(shiftPoint_of_ge h1 hse).symm,
      (shiftPoint_of_ge (by linarith) hse).symm, by simp; linarith, by simp; linarith⟩
  · rw [Option.some_inj] at h
    subst h
    exact ⟨(shiftPoint_of_le e (by linarith) hse).symm,
      (shiftPoint_of_le e h2 hse).symm, hc0, hc⟩
  · rw [Option.some_inj] at h
    subst h
    exact ⟨(shiftPoint_of_le e (le_of_lt h4.1) hse).symm,
      (shiftPoint_of_ge (le_of_lt h4.2) hse).symm, by simp [hc0], by simp; linarith [h4.1, h4.2]⟩
  · rw [Option.some_inj] at h
    subst h
    have hstope : c.stop ≤ e := by
      rcases not_and_or.mp h4 with h4' | h4'
      · exact absurd h5.1 h4'
      · exact le_of_not_lt h4'
    exact ⟨(shiftPoint_of_le e (le_of_lt h5.1) hse).symm,
      (shiftPoint_of_mem (le_of_lt h5.2) hstope).symm, by simp [hc0], by simp [h5.1]⟩
  · rw [Option.some_inj] at h
    subst h
    have hstart : s ≤ c.start := by
      rcases not_and_or.mp h5 with h5' | h5'
      · exact le_of_not_lt h5'
      · exact absurd (lt_of_not_ge h2) h5'
    exact ⟨(shiftPoint_of_mem hstart (le_of_lt h6.1)).symm,
      (shiftPoint_of_ge (le_of_lt h6.2) hse).symm, by simp [hs], by simp; linarith [h6.2]⟩
  · exfalso
    have he1 : c.start < e := lt_of_not_ge h1
    have he2 : s < c.stop := lt_of_not_ge h2
    rcases not_and_or.mp h5 with h5' | h5'
    · have hstart : s ≤ c.start := le_of_not_lt h5'
      rcases not_and_or.mp h3 with h3' | h3'
      · exact h3' hstart
      · exact h6 ⟨he1, lt_of_not_ge h3'⟩
    · exact h5' he2

theorem pairwise_filterMap_of_mem {α β : Type} {R : α → α → Prop} {S : β → β → Prop}
    (f : α → Option β) :
    ∀ l : List α,
      (∀ a ∈ l, ∀ b ∈ l, ∀ a' b', R a b → f a = some a' → f b = some b' → S a' b') →
      l.Pairwise R → (l.filterMap f).Pairwise S := by
  intro l
  induction l with
  | nil =>
    intro _ _
    simp
  | cons a l ih =>
    intro hf hp
    rw [List.pairwise_cons] at hp
    have ihl := ih (fun x hx y hy => hf x (List.mem_cons_of_mem a hx) y (List.mem_cons_of_mem a hy)) hp.2
    cases hfa : f a with
    | none =>
      rw [List.filterMap_cons_none hfa]
      exact ihl
    | some b =>
      rw [List.filterMap_cons_some hfa, List.pairwise_cons]
      refine ⟨?_, ihl⟩
      intro y hy
      obtain ⟨x, hx, hfx⟩ := List.mem_filterMap.mp hy
      exact hf a (List.mem_cons_self a l) x (List.mem_cons_of_mem a hx) b y (hp.1 x hx) hfa hfx

theorem splitChunks_bounds (t : ℚ) (nid : ℕ) :
    ∀ cs l, splitChunks t nid cs = some l →
      ∀ x ∈ l, ∃ y ∈ cs, y.start ≤ x.start ∧ x.stop ≤ y.stop := by
  intro cs
  induction cs with
  | nil =>
    intro l h
    exact absurd h (by simp [splitChunks])
  | cons c cs ih =>
    intro l h
    by_cases hc : c.start < t ∧ t < c.stop
    · simp only [splitChunks, if_pos hc, Option.some_inj] at h
      subst h
      intro x hx
      rcases List.mem_cons.mp hx with rfl | hx'
      · exact ⟨c, List.mem_cons_self c cs, le_refl _, le_of_lt hc.2⟩
      rcases List.mem_cons.mp hx' with rfl | hx''
      · exact ⟨c, List.mem_cons_self c cs, le_of_lt hc.1, le_refl _⟩
      · exact ⟨x, List.mem_cons_of_mem c hx'', le_refl _, le_refl _⟩
    · cases hsc : splitChunks t nid cs with
      | none =>
        simp only [splitChunks, if_neg hc, hsc, Option.map_none'] at h
        exact absurd h (by simp)
      | some l' =>
        simp only [splitChunks, if_neg hc, hsc, Option.map_some', Option.some_inj] at h
        subst h
        intro x hx
        rcases List.mem_cons.mp hx with rfl | hx'
        · exact ⟨x, List.mem_cons_self x cs, le_refl _, le_refl _⟩
        · obtain ⟨y, hy, hb⟩ := ih l' hsc x hx'
          exact ⟨y, List.mem_cons_of_mem c hy, hb⟩

theorem splitChunks_wf (t : ℚ) (nid : ℕ) :
    ∀ cs l, ChunksWF cs → ChunksOrdered cs → splitChunks t nid cs = some l →
      ChunksWF l ∧ ChunksOrdered l := by
  intro cs
  induction cs with
  | nil =>
    intro l _ _ h
    exact absurd h (by simp [splitChunks])
  | cons c cs ih =>
    intro l hwf hord h
    have hcwf := hwf c (List.mem_cons_self c cs)
    have hwf' : ChunksWF cs := fun x hx => hwf x (List.mem_cons_of_mem c hx)
    rw [ChunksOrdered, List.pairwise_cons] at hord
    by_cases hc : c.start < t ∧ t < c.stop
    · simp only [splitChunks, if_pos hc, Option.some_inj] at h
      subst h
      constructor
      · intro x hx
        rcases List.mem_cons.mp hx with rfl | hx'
        · exact ⟨hcwf.1, hc.1⟩
        rcases List.mem_cons.mp hx' with rfl | hx''
        · exact ⟨le_trans hcwf.1 (le_of_lt hc.1), hc.2⟩
        · exact hwf' x hx''
      · rw [ChunksOrdered, List.pairwise_cons]
        constructor
        · intro b hb
          rcases List.mem_cons.mp hb with rfl | hb'
          · exact le_refl t
          · exact le_trans (le_of_lt hc.2) (hord.1 b hb')
        rw [List.pairwise_cons]
        exact ⟨fun b hb => hord.1 b hb, hord.2⟩
    · cases hsc : splitChunks t nid cs with
      | none =>
        simp only [splitChunks, if_neg hc, hsc, Option.map_none'] at h
        exact absurd h (by simp)
      | some l' =>
        simp only [splitChunks, if_neg hc, hsc, Option.map_some', Option.some_inj] at h
        subst h
        obtain ⟨hwfl', hordl'⟩ := ih l' hwf' hord.2 hsc
        constructor
        · intro x hx
          rcases List.mem_cons.mp hx with rfl | hx'
          · exact hcwf
          · exact hwfl' x hx'
        · rw [ChunksOrdered, List.pairwise_cons]
          refine ⟨?_, hordl'⟩
          intro b hb
          obtain ⟨y, hy, hb1, _⟩ := splitChunks_bounds t nid cs l' hsc b hb
          exact le_trans (hord.1 y hy) hb1

/-- C4: well-formedness is an invariant: if every chunk satisfies
`0 ≤ start < end` and the list is ordered with pairwise non-overlapping
`[start, end)` intervals, then after any `splitAtPosition t` (succeeding or
not) and after any `deleteTimeRange s e` with `0 ≤ s ≤ e`, both properties
still hold. -/
theorem wellFormedInvariant (st : ChunkManagerState) (t s e : ℚ)
    (hwf : ChunksWF st.chunks) (hord : ChunksOrdered st.chunks)
    (hs : 0 ≤ s) (hse : s ≤ e) :
    (ChunksWF (splitAtPosition st t).2.chunks ∧ ChunksOrdered (splitAtPosition st t).2.chunks)
    ∧ (ChunksWF (deleteTimeRange st.chunks s e)
        ∧ ChunksOrdered (deleteTimeRange st.chunks s e)) := by
  constructor
  · cases hm : splitChunks t st.nextChunkId st.chunks with
    | none =>
      simpa [splitAtPosition, hm] using ⟨hwf, hord⟩
    | some l =>
      have hl := splitChunks_wf t st.nextChunkId st.chunks l hwf hord hm
      simpa [splitAtPosition, hm] using hl
  · constructor
    · intro c' hc'
      obtain ⟨c, hc, hdel⟩ := List.mem_filterMap.mp hc'
      obtain ⟨_, _, h3, h4⟩ :=
        deleteChunk_endpoints s e c c' hs hse (hwf c hc).1 (hwf c hc).2 hdel
      exact ⟨h3, h4⟩
    · refine pairwise_filterMap_of_mem (deleteChunk s e) st.chunks ?_ hord
      intro a ha b hb a' b' hR hfa hfb
      obtain ⟨_, ha2, _, _⟩ :=
        deleteChunk_endpoints s e a a' hs hse (hwf a ha).1 (hwf a ha).2 hfa
      obtain ⟨hb1, _, _, _⟩ :=
        deleteChunk_endpoints s e b b' hs hse (hwf b hb).1 (hwf b hb).2 hfb
      rw [ha2, hb1]
      exact shiftPoint_mono s e hR

/-- C4 witness: the invariant applied to the concrete manager state with
chunks `[{0,3},{3,10}]`, split position `1` and delete range `[1,2]`. -/
theorem wellFormedInvariant_witness :
    (ChunksWF [Chunk.mk 0 3 0, Chunk.mk 3 10 1]
      ∧ ChunksOrdered [Chunk.mk 0 3 0, Chunk.mk 3 10 1]
      ∧ (0 : ℚ) ≤ 1 ∧ (1 : ℚ) ≤ 2)
    ∧ ((ChunksWF (splitAtPosition ⟨[Chunk.mk 0 3 0, Chunk.mk 3 10 1], none, 2⟩ 1).2.chunks
        ∧ ChunksOrdered (splitAtPosition ⟨[Chunk.mk 0 3 0, Chunk.mk 3 10 1], none, 2⟩ 1).2.chunks)
      ∧ (ChunksWF (deleteTimeRange [Chunk.mk 0 3 0, Chunk.mk 3 10 1] 1 2)
          ∧ ChunksOrdered (deleteTimeRange [Chunk.mk 0 3 0, Chunk.mk 3 10 1] 1 2))) :=
  ⟨⟨by intro c hc; fin_cases hc <;> norm_num,
    by refine List.Pairwise.cons ?_ (List.pairwise_singleton _ _); intro b hb; fin_cases hb; norm_num,
    by norm_num, by norm_num⟩,
    wellFormedInvariant ⟨[Chunk.mk 0 3 0, Chunk.mk 3 10 1], none, 2⟩ 1 1 2
      (by intro c hc; fin_cases hc <;> norm_num)
      (by refine List.Pairwise.cons ?_ (List.pairwise_singleton _ _); intro b hb; fin_cases hb; norm_num)
      (by norm_num) (by norm_num)⟩

/-- A decoded PCM buffer (the Web Audio `AudioBuffer` as the editor uses it):
channel count, frame count, sample rate and per-channel sample data.  Sample
values are modelled as reals; `data ch i` is only meaningful for
`ch < numberOfChannels` and `i < length` (a `Float32Array` read outside its
bounds has no value), so theorems quantify over in-range indices. -/
structure AudioBuffer where
  numberOfChannels : ℕ
  length : ℕ
  sampleRate : ℚ
  data : ℕ → ℕ → ℝ

/-- `Math.floor(time * sampleRate)` as a sample index.  The editor only
forms it from non-negative times and rates, where `Int.toNat` is exact. -/
def sampleIndex (t sr : ℚ) : ℕ :=
  (Int.floor (t * sr)).toNat

/-- The buffer part of `AudioChunkingEditor.deleteAudioRange` (editor source
lines 1024-1052): the new length is `oldLength - (endSample - startSample)`,
and the two per-channel copy loops (`[0, startSample)` verbatim,
`[endSample, oldLength)` shifted left by `samplesToDelete`) combine into one
read: frame `i` of the new buffer is old frame `i` below `startSample` and
old frame `i + samplesToDelete` from there on. -/
def deleteAudioRange (buf : AudioBuffer) (startTime endTime : ℚ) : AudioBuffer :=
  let startSample := sampleIndex startTime buf.sampleRate
  let endSample := sampleIndex endTime buf.sampleRate
  let samplesToDelete := endSample - startSample
  { numberOfChannels := buf.numberOfChannels
    length := buf.length - samplesToDelete
    sampleRate := buf.sampleRate
    data := fun ch i =>
      if i < startSample then buf.data ch i else buf.data ch (i + samplesToDelete) }

/-- What the C6 claim states of `deleteAudioRange`: length arithmetic, the
two copy regions, unchanged rate/channels, and the zero-length range being a
no-op. -/
def DeleteAudioRangeSpec (buf : AudioBuffer) (startTime endTime : ℚ) : Prop :=
  (deleteAudioRange buf startTime endTime).length =
      buf.length - (sampleIndex endTime buf.sampleRate - sampleIndex startTime buf.sampleRate)
  ∧ (deleteAudioRange buf startTime endTime).sampleRate = buf.sampleRate
  ∧ (deleteAudioRange buf startTime endTime).numberOfChannels = buf.numberOfChannels
  ∧ (∀ ch i, i < sampleIndex startTime buf.sampleRate →
      (deleteAudioRange buf startTime endTime).data ch i = buf.data ch i)
  ∧ (∀ ch i, sampleIndex endTime buf.sampleRate ≤ i → i < buf.length →
      (deleteAudioRange buf startTime endTime).data ch
          (i - (sampleIndex endTime buf.sampleRate - sampleIndex startTime buf.sampleRate)) =
        buf.data ch i)
  ∧ (sampleIndex startTime buf.sampleRate = sampleIndex endTime buf.sampleRate →
      (deleteAudioRange buf startTime endTime).length = buf.length
      ∧ ∀ ch i, (deleteAudioRange buf startTime endTime).data ch i = buf.data ch i)

/-- C6: `deleteAudioRange` removes `endSample - startSample` frames
(`startSample = floor(startTime*sampleRate)`, `endSample =
floor(endTime*sampleRate)`): frames below `startSample` are copied unchanged,
frames from `endSample` on are shifted left by the deleted count, sample
rate and channel count are untouched, and an empty range
(`startSample == endSample`) is a legal no-op. -/
theorem deleteAudioRange_spec (buf : AudioBuffer) (startTime endTime : ℚ)
    (hse : sampleIndex startTime buf.sampleRate ≤ sampleIndex endTime buf.sampleRate) :
    DeleteAudioRangeSpec buf startTime endTime := by
  unfold DeleteAudioRangeSpec deleteAudioRange
  dsimp only
  refine ⟨rfl, rfl, rfl, ?_, ?_, ?_⟩
  · intro ch i hi
    exact if_pos hi
  · intro ch i h1 h2
    have hno : ¬(i - (sampleIndex endTime buf.sampleRate - sampleIndex startTime buf.sampleRate)
        < sampleIndex startTime buf.sampleRate) := by omega
    rw [if_neg hno]
    congr 1
    omega
  · intro h
    refine ⟨by omega, ?_⟩
    intro ch i
    by_cases hi : i < sampleIndex startTime buf.sampleRate
    · rw [if_pos hi]
    · rw [if_neg hi, h, Nat.sub_self, Nat.add_zero]

/-- C6 witness: `deleteAudioRange` on the 4-frame mono ramp buffer at rate
`1`, deleting `[1s, 2s)`. -/
theorem deleteAudioRange_spec_witness :
    sampleIndex 1 (AudioBuffer.mk 1 4 1 fun _ i => (i : ℝ)).sampleRate ≤
        sampleIndex 2 (AudioBuffer.mk 1 4 1 fun _ i => (i : ℝ)).sampleRate
    ∧ DeleteAudioRangeSpec (AudioBuffer.mk 1 4 1 fun _ i => (i : ℝ)) 1 2 :=
  ⟨by norm_num [sampleIndex], deleteAudioRange_spec _ 1 2 (by norm_num [sampleIndex])⟩

/-- The two playback-position fields that `deleteAudioRange` rewrites after
editing the buffer: the player's `pausedAtTime` and the editor's
`seekPosition`. -/
structure PlaybackPosition where
  pausedAtTime : ℚ
  seekPosition : ℚ

/-- The playback-position remapping at the end of
`AudioChunkingEditor.deleteAudioRange` (editor source lines 1060-1068):
`pausedAtTime` inside the deleted range snaps to its start, after the range
it shifts left by the deleted duration, before it it is untouched; then
`seekPosition` is set to the resulting `pausedAtTime`. -/
def remapPlaybackAfterDelete (st : PlaybackPosition) (startTime endTime : ℚ) :
    PlaybackPosition :=
  let deleteDuration := endTime - startTime
  let p :=
    if startTime ≤ st.pausedAtTime ∧ st.pausedAtTime ≤ endTime then startTime
    else if st.pausedAtTime > endTime then st.pausedAtTime - deleteDuration
    else st.pausedAtTime
  { pausedAtTime := p, seekPosition := p }

/-- What the C10 claim states of the playback-position remap. -/
def RemapPlaybackSpec (st : PlaybackPosition) (s e : ℚ) : Prop :=
  ((s ≤ st.pausedAtTime ∧ st.pausedAtTime ≤ e) →
      (remapPlaybackAfterDelete st s e).pausedAtTime = s)
  ∧ (e < st.pausedAtTime →
      (remapPlaybackAfterDelete st s e).pausedAtTime = st.pausedAtTime - (e - s))
  ∧ (st.pausedAtTime < s →
      (remapPlaybackAfterDelete st s e).pausedAtTime = st.pausedAtTime)
  ∧ (remapPlaybackAfterDelete st s e).seekPosition =
      (remapPlaybackAfterDelete st s e).pausedAtTime

/-- C10: after `deleteAudioRange(startTime, endTime)`, `pausedAtTime` within
`[startTime, endTime]` becomes `startTime`; above `endTime` it decreases by
`endTime - startTime`; below `startTime` it is unchanged; and the seek
position equals the resulting `pausedAtTime`. -/
theorem remapPlayback_spec (st : PlaybackPosition) (s e : ℚ) (hse : s ≤ e) :
    RemapPlaybackSpec st s e := by
  unfold RemapPlaybackSpec remapPlaybackAfterDelete
  dsimp only
  refine ⟨?_, ?_, ?_, rfl⟩
  · intro h
    rw [if_pos h]
  · intro h
    have h1 : ¬(s ≤ st.pausedAtTime ∧ st.pausedAtTime ≤ e) := fun hh => absurd h (not_lt.mpr hh.2)
    rw [if_neg h1, if_pos h]
  · intro h
    have h1 : ¬(s ≤ st.pausedAtTime ∧ st.pausedAtTime ≤ e) := fun hh => absurd hh.1 (not_le.mpr h)
    have h2 : ¬(st.pausedAtTime > e) := by linarith
    rw [if_neg h1, if_neg h2]

/-- C10 witness: the remap applied to `pausedAtTime = 3` with delete range
`[1, 2]`. -/
theorem remapPlayback_spec_witness :
    (1 : ℚ) ≤ 2 ∧ RemapPlaybackSpec ⟨3, 0⟩ 1 2 :=
  ⟨by norm_num, remapPlayback_spec ⟨3, 0⟩ 1 2 (by norm_num)⟩

/-- The fade direction: the editor's `applyFadeEffect` tests
`type === 'in'` and treats anything else as a fade-out. -/
inductive FadeType where
  | fadeIn
  | fadeOut
deriving DecidableEq, Repr

/-- `AudioChunkingEditor.applyFadeEffect` (editor source lines 1807-1847):
every sample is first copied, then indices in `[startSample, endSample)` are
scaled by the cosine-eased multiplier `0.5 * (1 - cos(raw * π))`, where
`raw` is the linear progress through the range for a fade-in and one minus
it for a fade-out. -/
noncomputable def applyFadeEffect (buf : AudioBuffer) (startTime endTime : ℚ)
    (type : FadeType) : AudioBuffer :=
  let startSample := sampleIndex startTime buf.sampleRate
  let endSample := sampleIndex endTime buf.sampleRate
  let fadeLength := endSample - startSample
  { numberOfChannels := buf.numberOfChannels
    length := buf.length
    sampleRate := buf.sampleRate
    data := fun ch i =>
      if startSample ≤ i ∧ i < endSample then
        let fadeProgress : ℝ := ((i - startSample : ℕ) : ℝ) / ((fadeLength : ℕ) : ℝ)
        let raw : ℝ :=
          match type with
          | FadeType.fadeIn => fadeProgress
          | FadeType.fadeOut => 1 - fadeProgress
        buf.data ch i * (0.5 * (1 - Real.cos (raw * Real.pi)))
      else
        buf.data ch i }

/-- What the C7 claim states of `applyFadeEffect`: the per-sample cosine
formula inside the range, untouched samples outside, unchanged metadata, and
the exact endpoint values (`0` at the range start of a fade-in, the original
sample at the range start of a fade-out, and the original sample at the
first index past the range). -/
def ApplyFadeSpec (buf : AudioBuffer) (startTime endTime : ℚ) (type : FadeType) : Prop :=
  (applyFadeEffect buf startTime endTime type).length = buf.length
  ∧ (applyFadeEffect buf startTime endTime type).numberOfChannels = buf.numberOfChannels
  ∧ (applyFadeEffect buf startTime endTime type).sampleRate = buf.sampleRate
  ∧ (∀ ch i, sampleIndex startTime buf.sampleRate ≤ i → i < sampleIndex endTime buf.sampleRate →
      (applyFadeEffect buf startTime endTime type).data ch i =
        buf.data ch i *
          (0.5 * (1 - Real.cos (
            (match type with
              | FadeType.fadeIn =>
                  ((i - sampleIndex startTime buf.sampleRate : ℕ) : ℝ) /
                    ((sampleIndex endTime buf.sampleRate - sampleIndex startTime buf.sampleRate : ℕ) : ℝ)
              | FadeType.fadeOut =>
                  1 - ((i - sampleIndex startTime buf.sampleRate : ℕ) : ℝ) /
                    ((sampleIndex endTime buf.sampleRate - sampleIndex startTime buf.sampleRate : ℕ) : ℝ))
            * Real.pi))))
  ∧ (∀ ch i, ¬(sampleIndex startTime buf.sampleRate ≤ i ∧ i < sampleIndex endTime buf.sampleRate) →
      (applyFadeEffect buf startTime endTime type).data ch i = buf.data ch i)
  ∧ (sampleIndex startTime buf.sampleRate < sampleIndex endTime buf.sampleRate →
      ∀ ch,
        (applyFadeEffect buf startTime endTime FadeType.fadeIn).data ch
            (sampleIndex startTime buf.sampleRate) = 0
        ∧ (applyFadeEffect buf startTime endTime FadeType.fadeOut).data ch
            (sampleIndex startTime buf.sampleRate) =
          buf.data ch (sampleIndex startTime buf.sampleRate)
        ∧ (applyFadeEffect buf startTime endTime type).data ch
            (sampleIndex endTime buf.sampleRate) =
          buf.data ch (sampleIndex endTime buf.sampleRate))

/-- C7: `applyFadeEffect` multiplies every sample in `[startSample,
endSample)` by `0.5*(1-cos(raw*π))` with `raw` the (inverted, for fade-out)
linear progress, copies every other sample unchanged, keeps frame count,
channel count and sample rate, and consequently a fade-in is exactly `0` at
the range start while a fade-out keeps the original value there, and the
sample at the range end index is untouched. -/
theorem applyFadeEffect_spec (buf : AudioBuffer) (startTime endTime : ℚ) (type : FadeType) :
    ApplyFadeSpec buf startTime endTime type := by
  unfold ApplyFadeSpec applyFadeEffect
  dsimp only
  refine ⟨rfl, rfl, rfl, ?_, ?_, ?_⟩
  · intro ch i h1 h2
    rw [if_pos ⟨h1, h2⟩]
  · intro ch i h
    rw [if_neg h]
  · intro hlt ch
    refine ⟨?_, ?_, ?_⟩
    · rw [if_pos ⟨le_refl _, hlt⟩]
      simp [Nat.sub_self]
    · rw [if_pos ⟨le_refl _, hlt⟩]
      simp [Nat.sub_self, Real.cos_pi]
      norm_num
    · rw [if_neg fun hh => lt_irrefl _ hh.2]

/-- The index pairs `(channel, sampleIndex)` the two analysis loops of
`AudioUtils.normalizeAudio` visit: every channel crossed with the sample
range `[startSample, endSample)`. -/
def sampleRange (buf : AudioBuffer) (startSample endSample : ℕ) : Finset (ℕ × ℕ) :=
  Finset.range buf.numberOfChannels ×ˢ Finset.Ico startSample endSample

/-- The `sumSquares` accumulator of `normalizeAudio`: the sum of
`sample * sample` over the analysed range, all channels combined. -/
noncomputable def sumSquares (buf : AudioBuffer) (startSample endSample : ℕ) : ℝ :=
  ∑ p ∈ sampleRange buf startSample endSample, buf.data p.1 p.2 * buf.data p.1 p.2

/-- The `sampleCount` accumulator of `normalizeAudio`: one increment per
visited index pair. -/
def sampleCount (buf : AudioBuffer) (startSample endSample : ℕ) : ℕ :=
  buf.numberOfChannels * (endSample - startSample)

/-- The `maxAmplitude` accumulator of `normalizeAudio`: the running maximum
of `|sample|` over the analysed range, starting from `0`. -/
noncomputable def maxAmplitude (buf : AudioBuffer) (startSample endSample : ℕ) : ℝ :=
  (sampleRange buf startSample endSample).fold max 0 fun p => |buf.data p.1 p.2|

/-- `AudioUtils.normalizeAudio` (`part_010` lines 112-188): copy the buffer;
if the analysed range has zero peak or zero samples return the copy
unchanged; otherwise scale the range by the RMS-based gain, overridden by
the peak-based gain when the RMS gain would push the peak past the target,
capped at `10^(30/20)`, and hard-clip each scaled sample to `[-1, 1]`. -/
noncomputable def normalizeAudio (buf : AudioBuffer) (startTime endTime : ℚ)
    (targetLevel : ℝ) : AudioBuffer :=
  let startSample := sampleIndex startTime buf.sampleRate
  let endSample := sampleIndex endTime buf.sampleRate
  if maxAmplitude buf startSample endSample = 0 ∨ sampleCount buf startSample endSample = 0 then
    { buf with data := buf.data }
  else
    let rms := Real.sqrt (sumSquares buf startSample endSample /
      (sampleCount buf startSample endSample : ℝ))
    let targetLinear := (10 : ℝ) ^ (targetLevel / 20)
    let normalizationFactor := targetLinear / rms
    let factor1 :=
      if maxAmplitude buf startSample endSample * normalizationFactor > targetLinear then
        targetLinear / maxAmplitude buf startSample endSample
      else normalizationFactor
    let maxGain := (10 : ℝ) ^ ((30 : ℝ) / 20)
    let factor := if factor1 > maxGain then maxGain else factor1
    { buf with
      data := fun ch i =>
        if startSample ≤ i ∧ i < endSample then
          max (-1) (min 1 (buf.data ch i * factor))
        else buf.data ch i }

/-- The gain the C5 claim describes, written as the claim words it: the
RMS-based candidate, replaced by the peak-based gain when `peak * candidate`
would exceed the target, then capped (`min`) at `10^(30/20)`. -/
noncomputable def claimedGain (buf : AudioBuffer) (startSample endSample : ℕ)
    (targetDb : ℝ) : ℝ :=
  let targetLinear := (10 : ℝ) ^ (targetDb / 20)
  let rms := Real.sqrt (sumSquares buf startSample endSample /
    (sampleCount buf startSample endSample : ℝ))
  let candidate := targetLinear / rms
  let g :=
    if maxAmplitude buf startSample endSample * candidate > targetLinear then
      targetLinear / maxAmplitude buf startSample endSample
    else candidate
  min g ((10 : ℝ) ^ ((30 : ℝ) / 20))

theorem maxAmplitude_of_count_zero (buf : AudioBuffer) (startSample endSample : ℕ)
    (h : sampleCount buf startSample endSample = 0) :
    maxAmplitude buf startSample endSample = 0 := by
  unfold sampleCount at h
  rcases Nat.mul_eq_zero.mp h with hc | hr
  · unfold maxAmplitude sampleRange
    rw [hc]
    simp
  · unfold maxAmplitude sampleRange
    rw [Finset.Ico_eq_empty (by omega)]
    simp

/-- What the C5 claim states of `normalizeAudio` at the default target of
`-3` dB: silence (zero peak) is a no-op, otherwise every in-range sample is
the hard-clipped product with the claimed gain and every out-of-range sample
is copied unchanged (metadata always preserved). -/
def NormalizeSpec (buf : AudioBuffer) (startTime endTime : ℚ) : Prop :=
  (normalizeAudio buf startTime endTime (-3)).length = buf.length
  ∧ (normalizeAudio buf startTime endTime (-3)).numberOfChannels = buf.numberOfChannels
  ∧ (normalizeAudio buf startTime endTime (-3)).sampleRate = buf.sampleRate
  ∧ (maxAmplitude buf (sampleIndex startTime buf.sampleRate) (sampleIndex endTime buf.sampleRate) = 0 →
      ∀ ch i, (normalizeAudio buf startTime endTime (-3)).data ch i = buf.data ch i)
  ∧ (maxAmplitude buf (sampleIndex startTime buf.sampleRate) (sampleIndex endTime buf.sampleRate) ≠ 0 →
      (∀ ch i, sampleIndex startTime buf.sampleRate ≤ i → i < sampleIndex endTime buf.sampleRate →
        (normalizeAudio buf startTime endTime (-3)).data ch i =
          max (-1) (min 1 (buf.data ch i *
            claimedGain buf (sampleIndex startTime buf.sampleRate)
              (sampleIndex endTime buf.sampleRate) (-3))))
      ∧ (∀ ch i, ¬(sampleIndex startTime buf.sampleRate ≤ i ∧ i < sampleIndex endTime buf.sampleRate) →
          (normalizeAudio buf startTime endTime (-3)).data ch i = buf.data ch i))

theorem ite_gt_eq_min (x m : ℝ) : (if x > m then m else x) = min x m := by
  split_ifs with h
  · exact (min_eq_right (le_of_lt h)).symm
  · exact (min_eq_left (le_of_not_lt h)).symm

/-- C5: `normalizeAudio` with the default `-3` dB target: a zero peak over
the selected range leaves every sample equal to the input; otherwise the
gain is `targetLinear/RMS`, replaced by `targetLinear/peak` when
`peak*(targetLinear/RMS) > targetLinear`, capped at `10^(30/20)`, and every
in-range output sample is `clip(input * gain, -1, 1)` while out-of-range
samples are copied unchanged. -/
theorem normalizeAudio_spec (buf : AudioBuffer) (startTime endTime : ℚ) :
    NormalizeSpec buf startTime endTime := by
  unfold NormalizeSpec normalizeAudio
  by_cases hz : maxAmplitude buf (sampleIndex startTime buf.sampleRate)
      (sampleIndex endTime buf.sampleRate) = 0 ∨
      sampleCount buf (sampleIndex startTime buf.sampleRate)
        (sampleIndex endTime buf.sampleRate) = 0
  · rw [if_pos hz]
    refine ⟨rfl, rfl, rfl, fun _ ch i => rfl, ?_⟩
    intro hne
    rcases hz with hz | hz
    · exact absurd hz hne
    · exact absurd (maxAmplitude_of_count_zero buf _ _ hz) hne
  · rw [if_neg hz]
    push_neg at hz
    refine ⟨rfl, rfl, rfl, fun h0 => absurd h0 hz.1, ?_⟩
    intro _
    constructor
    · intro ch i h1 h2
      dsimp only
      rw [if_pos ⟨h1, h2⟩, ite_gt_eq_min]
      rfl
    · intro ch i h
      dsimp only
      rw [if_neg h]

/-- A channel-data read as `createCombinedBuffer` performs it:
`oldData[idx] || 0`, where an out-of-bounds `Float32Array` read yields
`undefined` and `|| 0` turns it into `0`. -/
def readSample (buf : AudioBuffer) (ch i : ℕ) : ℝ :=
  if i < buf.length then buf.data ch i else 0

/-- `endFrame - startFrame` of one chunk inside
`ChunkManager.createCombinedBuffer` (both are `Math.floor(time *
sampleRate)`). -/
def chunkFrames (sr : ℚ) (c : Chunk) : ℕ :=
  sampleIndex c.stop sr - sampleIndex c.start sr

/-- Sum of the per-chunk frame counts. -/
def combinedFramesSum (sr : ℚ) (chunks : List Chunk) : ℕ :=
  (chunks.map (chunkFrames sr)).sum

/-- Frame offset at which the `k`-th chunk's data begins (the running
`currentFrame` of `createCombinedBuffer`). -/
def chunkOffset (sr : ℚ) (chunks : List Chunk) (k : ℕ) : ℕ :=
  ((chunks.take k).map (chunkFrames sr)).sum

/-- The copy loop of `ChunkManager.createCombinedBuffer` (`chunk-manager.js`
lines 242-261): for each chunk in order, frames `[currentFrame, currentFrame
+ chunkFrames)` of the output take the chunk's source frames (reads padded
with `0` past the source length by `|| 0`), but only below the guard
`currentFrame + i < totalFrames`; `acc` is the data written so far
(`createBuffer` zero-initialises it). -/
def placeChunks (orig : AudioBuffer) (totalFrames : ℕ) :
    List Chunk → ℕ → (ℕ → ℕ → ℝ) → ℕ → ℕ → ℝ
  | [], _, acc => acc
  | c :: rest, currentFrame, acc =>
    let startFrame := sampleIndex c.start orig.sampleRate
    let n := chunkFrames orig.sampleRate c
    placeChunks orig totalFrames rest (currentFrame + n) fun ch j =>
      if currentFrame ≤ j ∧ j < currentFrame + n ∧ j < totalFrames then
        readSample orig ch (startFrame + (j - currentFrame))
      else acc ch j

/-- `ChunkManager.createCombinedBuffer` (`chunk-manager.js` lines 226-264):
`null` for an empty chunk list; otherwise a buffer of
`floor(totalDuration * sampleRate)` frames filled by the per-chunk copy
loops over a zero-initialised buffer. -/
def createCombinedBuffer (orig : AudioBuffer) (chunks : List Chunk) :
    Option AudioBuffer :=
  if chunks = [] then none
  else
    let totalFrames := (Int.floor (totalDuration chunks * orig.sampleRate)).toNat
    some { numberOfChannels := orig.numberOfChannels
           length := totalFrames
           sampleRate := orig.sampleRate
           data := placeChunks orig totalFrames chunks 0 fun _ _ => 0 }

theorem placeChunks_below (orig : AudioBuffer) (totalFrames : ℕ) :
    ∀ (cs : List Chunk) (cur : ℕ) (acc : ℕ → ℕ → ℝ) (ch j : ℕ), j < cur →
      placeChunks orig totalFrames cs cur acc ch j = acc ch j := by
  intro cs
  induction cs with
  | nil =>
    intro cur acc ch j _
    rfl
  | cons c rest ih =>
    intro cur acc ch j hj
    unfold placeChunks
    rw [ih (cur + chunkFrames orig.sampleRate c) _ ch j (by omega)]
    rw [if_neg (by omega)]

theorem placeChunks_above (orig : AudioBuffer) (totalFrames : ℕ) :
    ∀ (cs : List Chunk) (cur : ℕ) (acc : ℕ → ℕ → ℝ) (ch j : ℕ),
      cur + combinedFramesSum orig.sampleRate cs ≤ j →
      placeChunks orig totalFrames cs cur acc ch j = acc ch j := by
  intro cs
  induction cs with
  | nil =>
    intro cur acc ch j _
    rfl
  | cons c rest ih =>
    intro cur acc ch j hj
    unfold combinedFramesSum at hj
    rw [List.map_cons, List.sum_cons] at hj
    unfold placeChunks
    rw [ih (cur + chunkFrames orig.sampleRate c) _ ch j (by unfold combinedFramesSum; omega)]
    rw [if_neg (by omega)]

theorem placeChunks_at (orig : AudioBuffer) (totalFrames : ℕ) :
    ∀ (cs : List Chunk) (cur : ℕ) (acc : ℕ → ℕ → ℝ) (ch k : ℕ) (hk : k < cs.length)
      (j : ℕ), j < chunkFrames orig.sampleRate (cs.get ⟨k, hk⟩) →
      placeChunks orig totalFrames cs cur acc ch (cur + chunkOffset orig.sampleRate cs k + j) =
        if cur + chunkOffset orig.sampleRate cs k + j < totalFrames then
          readSample orig ch (sampleIndex (cs.get ⟨k, hk⟩).start orig.sampleRate + j)
        else acc ch (cur + chunkOffset orig.sampleRate cs k + j) := by
  intro cs
  induction cs with
  | nil =>
    intro cur acc ch k hk
    exact absurd hk (Nat.not_lt_zero k)
  | cons c rest ih =>
    intro cur acc ch k hk j hj
    cases k with
    | zero =>
      have hoff : chunkOffset orig.sampleRate (c :: rest) 0 = 0 := rfl
      rw [hoff]
      unfold placeChunks
      rw [placeChunks_below orig totalFrames rest _ _ ch _ (by simpa using hj)]
      simp only [List.get] at hj ⊢
      try dsimp only
      have harg : cur + 0 + j - cur = j := by omega
      by_cases hT : cur + 0 + j < totalFrames
      · rw [if_pos (by refine ⟨by omega, by omega, hT⟩), harg, if_pos hT]
      · rw [if_neg (by omega), if_neg hT]
    | succ k' =>
      have hk' : k' < rest.length := Nat.lt_of_succ_lt_succ hk
      have hoff : chunkOffset orig.sampleRate (c :: rest) (k' + 1) =
          chunkFrames orig.sampleRate c + chunkOffset orig.sampleRate rest k' := by
        unfold chunkOffset
        rw [List.take_succ_cons, List.map_cons, List.sum_cons]
      unfold placeChunks
      have harg : cur + chunkOffset orig.sampleRate (c :: rest) (k' + 1) + j =
          (cur + chunkFrames orig.sampleRate c) + chunkOffset orig.sampleRate rest k' + j := by
        rw [hoff]
        omega
      rw [harg, ih (cur + chunkFrames orig.sampleRate c) _ ch k' hk' j (by simpa using hj)]
      simp only [List.get]
      by_cases hT : (cur + chunkFrames orig.sampleRate c) + chunkOffset orig.sampleRate rest k' + j
          < totalFrames
      · rw [if_pos hT, if_pos hT]
      · rw [if_neg hT, if_neg hT, if_neg (by omega)]

/-- What the amended C8 claim states of `createCombinedBuffer`: some output
buffer exists (the list is non-empty), its rate and channel count match the
original, its frame count is `floor(totalDuration * sampleRate)` (NOT the
sum of per-chunk frame counts), each chunk's frames are laid end to end at
its running offset but truncated at the output length, with source reads
past the end of the original padded by `0`, and output frames past the sum
of per-chunk frame counts are the zero fill. -/
def CombinedBufferSpec (orig : AudioBuffer) (chunks : List Chunk) : Prop :=
  ∃ out, createCombinedBuffer orig chunks = some out
    ∧ out.sampleRate = orig.sampleRate
    ∧ out.numberOfChannels = orig.numberOfChannels
    ∧ out.length = (Int.floor (totalDuration chunks * orig.sampleRate)).toNat
    ∧ (∀ (k : ℕ) (hk : k < chunks.length) (j : ℕ),
        j < chunkFrames orig.sampleRate (chunks.get ⟨k, hk⟩) → ∀ ch,
        chunkOffset orig.sampleRate chunks k + j < out.length →
        out.data ch (chunkOffset orig.sampleRate chunks k + j) =
          readSample orig ch (sampleIndex (chunks.get ⟨k, hk⟩).start orig.sampleRate + j))
    ∧ (∀ ch j, combinedFramesSum orig.sampleRate chunks ≤ j → out.data ch j = 0)

/-- C8 (amended): for a non-empty chunk list, `createCombinedBuffer` keeps
rate and channels, has `floor(totalDuration*sampleRate)` frames, and places
each chunk's frame range at its running offset (truncated at the output
length, with out-of-source reads as `0` and untouched tail frames `0`). -/
theorem createCombinedBuffer_spec (orig : AudioBuffer) (chunks : List Chunk)
    (hne : chunks ≠ []) : CombinedBufferSpec orig chunks := by
  unfold CombinedBufferSpec createCombinedBuffer
  rw [if_neg hne]
  refine ⟨_, rfl, rfl, rfl, rfl, ?_, ?_⟩
  · intro k hk j hj ch hlt
    dsimp only at hlt ⊢
    have hplace := placeChunks_at orig
      ((Int.floor (totalDuration chunks * orig.sampleRate)).toNat)
      chunks 0 (fun _ _ => 0) ch k hk j hj
    simp only [Nat.zero_add] at hplace
    rw [hplace, if_pos hlt]
  · intro ch j hj
    dsimp only
    exact placeChunks_above orig _ chunks 0 (fun _ _ => 0) ch j (by omega)

/-- C8 witness: the amended claim at a concrete 2-frame source at rate `2`
with the single chunk `[1/4, 1]`. -/
theorem createCombinedBuffer_spec_witness :
    [Chunk.mk (1/4) 1 0] ≠ []
    ∧ CombinedBufferSpec (AudioBuffer.mk 1 2 2 fun _ _ => 1) [Chunk.mk (1/4) 1 0] :=
  ⟨by simp, createCombinedBuffer_spec (AudioBuffer.mk 1 2 2 fun _ _ => 1)
    [Chunk.mk (1/4) 1 0] (by simp)⟩

/-- C8 counterexample: for the single chunk `[1/4, 1]` over a rate-`2`
source, the output has `floor(3/4 * 2) = 1` frame while the chunk's frame
count `floor(1*2) - floor(1/4*2)` is `2`: the output frame count is NOT the
sum of the per-chunk frame counts, and a frame is dropped. -/
theorem createCombinedBuffer_cex :
    (createCombinedBuffer (AudioBuffer.mk 1 2 2 fun _ _ => 1) [Chunk.mk (1/4) 1 0]).map
        AudioBuffer.length = some 1
    ∧ combinedFramesSum (AudioBuffer.mk 1 2 2 fun _ _ => 1).sampleRate [Chunk.mk (1/4) 1 0] = 2 := by
  constructor
  · unfold createCombinedBuffer
    rw [if_neg (by simp), Option.map_some']
    dsimp only
    unfold totalDuration
    norm_num [Int.floor_eq_iff]
  · dsimp only
    unfold combinedFramesSum chunkFrames sampleIndex
    simp only [List.map_cons, List.map_nil, List.sum_cons, List.sum_nil]
    norm_num [Int.floor_eq_iff]
    rfl

/-- `Math.max(chunk.start, visibleRange.start)` at zoom level `1`
(`visibleRange.start = zoomOffset = 0`). -/
def clipStart (c : Chunk) : ℚ :=
  max c.start 0

/-- `Math.min(chunk.end, visibleRange.end)` at zoom level `1`
(`visibleRange.end = min(duration, 0 + duration) = duration`). -/
def clipStop (duration : ℚ) (c : Chunk) : ℚ :=
  min c.stop duration

/-- The visibility filter of `getPixelPositionForTime`:
`chunk.end > visibleRange.start && chunk.start < visibleRange.end`, at zoom
level `1`. -/
def visibleChunk (duration : ℚ) (c : Chunk) : Bool :=
  decide (c.stop > 0 ∧ c.start < duration)

/-- The `visibleChunks` local of `getPixelPositionForTime`. -/
def visibleChunksOf (chunks : List Chunk) (duration : ℚ) : List Chunk :=
  chunks.filter (visibleChunk duration)

/-- The `totalVisibleDuration` accumulator of `getPixelPositionForTime`. -/
def totalVisibleDuration (duration : ℚ) (vcs : List Chunk) : ℚ :=
  (vcs.map fun c => clipStop duration c - clipStart c).sum

/-- The `availableWidth` local of `getPixelPositionForTime`:
`canvasWidth - Math.max(0, visibleChunks.length - 1) * 4` (truncated `ℕ`
subtraction plays the `Math.max(0, ·)`). -/
def availableWidthOf (chunks : List Chunk) (duration canvasWidth : ℚ) : ℚ :=
  canvasWidth - (((visibleChunksOf chunks duration).length - 1) * 4 : ℕ)

/-- The `for (const chunk of visibleChunks)` loop of
`getPixelPositionForTime` (`waveform-renderer.js` lines 292-312): walk the
visible chunks accumulating `chunkWidth + gap`; the chunk whose clipped
closed interval contains `time` interpolates linearly; falling off the end
of the loop returns `0`. -/
def pixelWalk (duration availableWidth tvd time : ℚ) : List Chunk → ℚ → ℚ
  | [], _ => 0
  | c :: rest, currentX =>
    let cs := clipStart c
    let ce := clipStop duration c
    let d := ce - cs
    let w := availableWidth * (d / tvd)
    if cs ≤ time ∧ time ≤ ce then
      currentX + ((time - cs) / d) * w
    else
      pixelWalk duration availableWidth tvd time rest (currentX + w + 4)

/-- `WaveformRenderer.getPixelPositionForTime` (`waveform-renderer.js` lines
267-313) specialised to zoom level `1` with zoom offset `0`, where the
visible range is `[0, duration]`. -/
def getPixelPositionForTime (chunks : List Chunk) (duration canvasWidth time : ℚ) : ℚ :=
  if time < 0 ∨ time > duration then -1
  else if visibleChunksOf chunks duration = [] then -1
  else
    pixelWalk duration (availableWidthOf chunks duration canvasWidth)
      (totalVisibleDuration duration (visibleChunksOf chunks duration)) time
      (visibleChunksOf chunks duration) 0

/-- Accumulated pixel offset of the `k`-th visible chunk: the sum of
`width + gap` over the chunks walked past before it. -/
def walkOffset (duration availableWidth tvd : ℚ) (vcs : List Chunk) (k : ℕ) : ℚ :=
  ((vcs.take k).map fun c =>
    availableWidth * ((clipStop duration c - clipStart c) / tvd) + 4).sum

theorem pixelWalk_notFound (duration availableWidth tvd time : ℚ) :
    ∀ (l : List Chunk) (currentX : ℚ),
      (∀ c ∈ l, ¬(clipStart c ≤ time ∧ time ≤ clipStop duration c)) →
      pixelWalk duration availableWidth tvd time l currentX = 0 := by
  intro l
  induction l with
  | nil =>
    intro currentX _
    rfl
  | cons c rest ih =>
    intro currentX h
    unfold pixelWalk
    rw [if_neg (h c (List.mem_cons_self c rest))]
    exact ih _ fun x hx => h x (List.mem_cons_of_mem c hx)

theorem pixelWalk_found (duration availableWidth tvd time : ℚ) :
    ∀ (l : List Chunk) (currentX : ℚ) (k : ℕ) (hk : k < l.length),
      (clipStart (l.get ⟨k, hk⟩) ≤ time ∧ time ≤ clipStop duration (l.get ⟨k, hk⟩)) →
      (∀ (m : ℕ) (hm : m < l.length), m < k →
        ¬(clipStart (l.get ⟨m, hm⟩) ≤ time ∧ time ≤ clipStop duration (l.get ⟨m, hm⟩))) →
      pixelWalk duration availableWidth tvd time l currentX =
        currentX + walkOffset duration availableWidth tvd l k +
          ((time - clipStart (l.get ⟨k, hk⟩)) /
              (clipStop duration (l.get ⟨k, hk⟩) - clipStart (l.get ⟨k, hk⟩))) *
            (availableWidth *
              ((clipStop duration (l.get ⟨k, hk⟩) - clipStart (l.get ⟨k, hk⟩)) / tvd)) := by
  intro l
  induction l with
  | nil =>
    intro currentX k hk
    exact absurd hk (Nat.not_lt_zero k)
  | cons c rest ih =>
    intro currentX k hk hcond hfirst
    cases k with
    | zero =>
      unfold pixelWalk
      simp only [List.get] at hcond ⊢
      rw [if_pos hcond]
      have hoff : walkOffset duration availableWidth tvd (c :: rest) 0 = 0 := rfl
      rw [hoff, add_zero]
    | succ k' =>
      have hk' : k' < rest.length := Nat.lt_of_succ_lt_succ hk
      have hnotc := hfirst 0 (Nat.succ_pos _) (Nat.succ_pos k')
      simp only [List.get] at hnotc hcond ⊢
      unfold pixelWalk
      rw [if_neg hnotc]
      rw [ih _ k' hk' hcond fun m hm hmk =>
        by simpa using hfirst (m + 1) (Nat.succ_lt_succ hm) (Nat.succ_lt_succ hmk)]
      have hoff : walkOffset duration availableWidth tvd (c :: rest) (k' + 1) =
          (availableWidth * ((clipStop duration c - clipStart c) / tvd) + 4) +
            walkOffset duration availableWidth tvd rest k' := by
        unfold walkOffset
        rw [List.take_succ_cons, List.map_cons, List.sum_cons]
      rw [hoff]
      ring

/-- What the amended C9 claim states of the gapped-layout time-to-pixel
conversion at zoom level `1`: `-1` exactly for a time outside the visible
range `[0, duration]` or when no chunk passes the visibility filter; a time
inside the range but in no visible chunk's clipped closed interval falls off
the walk and yields `0` (NOT the `-1` sentinel); a time owned by the first
matching visible chunk yields its accumulated `width + gap` offset plus
linear interpolation within the chunk. -/
def PixelPositionSpec (chunks : List Chunk) (duration canvasWidth time : ℚ) : Prop :=
  ((time < 0 ∨ time > duration) →
      getPixelPositionForTime chunks duration canvasWidth time = -1)
  ∧ (¬(time < 0 ∨ time > duration) → visibleChunksOf chunks duration = [] →
      getPixelPositionForTime chunks duration canvasWidth time = -1)
  ∧ (¬(time < 0 ∨ time > duration) →
      (∀ c ∈ visibleChunksOf chunks duration,
        ¬(clipStart c ≤ time ∧ time ≤ clipStop duration c)) →
      visibleChunksOf chunks duration ≠ [] →
      getPixelPositionForTime chunks duration canvasWidth time = 0)
  ∧ (¬(time < 0 ∨ time > duration) →
      ∀ (k : ℕ) (hk : k < (visibleChunksOf chunks duration).length),
      (clipStart ((visibleChunksOf chunks duration).get ⟨k, hk⟩) ≤ time ∧
        time ≤ clipStop duration ((visibleChunksOf chunks duration).get ⟨k, hk⟩)) →
      (∀ (m : ℕ) (hm : m < (visibleChunksOf chunks duration).length), m < k →
        ¬(clipStart ((visibleChunksOf chunks duration).get ⟨m, hm⟩) ≤ time ∧
          time ≤ clipStop duration ((visibleChunksOf chunks duration).get ⟨m, hm⟩))) →
      getPixelPositionForTime chunks duration canvasWidth time =
        walkOffset duration (availableWidthOf chunks duration canvasWidth)
            (totalVisibleDuration duration (visibleChunksOf chunks duration))
            (visibleChunksOf chunks duration) k +
          ((time - clipStart ((visibleChunksOf chunks duration).get ⟨k, hk⟩)) /
              (clipStop duration ((visibleChunksOf chunks duration).get ⟨k, hk⟩) -
                clipStart ((visibleChunksOf chunks duration).get ⟨k, hk⟩))) *
            (availableWidthOf chunks duration canvasWidth *
              ((clipStop duration ((visibleChunksOf chunks duration).get ⟨k, hk⟩) -
                  clipStart ((visibleChunksOf chunks duration).get ⟨k, hk⟩)) /
                totalVisibleDuration duration (visibleChunksOf chunks duration))))

/-- C9 (amended): at zoom level `1`, `getPixelPositionForTime` returns `-1`
exactly when the time lies outside `[0, duration]` or no chunk is visible; a
time inside the range but in an inter-chunk gap returns `0`, not the `-1`
sentinel; and a time inside a visible chunk's clipped interval returns the
accumulated proportional-width-plus-gap offset with linear interpolation. -/
theorem getPixelPositionForTime_spec (chunks : List Chunk)
    (duration canvasWidth time : ℚ) :
    PixelPositionSpec chunks duration canvasWidth time := by
  unfold PixelPositionSpec getPixelPositionForTime
  refine ⟨?_, ?_, ?_, ?_⟩
  · intro h
    rw [if_pos h]
  · intro h hvis
    rw [if_neg h, if_pos hvis]
  · intro h hnone hne
    rw [if_neg h, if_neg hne]
    exact pixelWalk_notFound _ _ _ _ _ 0 hnone
  · intro h k hk hcond hfirst
    have hne : visibleChunksOf chunks duration ≠ [] := by
      intro hnil
      rw [hnil] at hk
      exact absurd hk (Nat.not_lt_zero k)
    rw [if_neg h, if_neg hne]
    rw [pixelWalk_found _ _ _ _ _ 0 k hk hcond hfirst, zero_add]

/-- C9 counterexample: for the chunks `[{0,1},{2,3}]` over a duration-`3`
buffer with a `100`-pixel canvas, the time `3/2` is inside the visible range
but inside no chunk (an inter-chunk gap), yet the conversion returns `0`,
not the `-1` sentinel the claim requires. -/
theorem pixelPosition_cex :
    (∀ c ∈ [Chunk.mk 0 1 0, Chunk.mk 2 3 1],
      ¬(clipStart c ≤ (3/2 : ℚ) ∧ (3/2 : ℚ) ≤ clipStop 3 c))
    ∧ ¬((3/2 : ℚ) < 0 ∨ (3/2 : ℚ) > 3)
    ∧ getPixelPositionForTime [Chunk.mk 0 1 0, Chunk.mk 2 3 1] 3 100 (3/2) = 0
    ∧ (0 : ℚ) ≠ -1 := by
  have hvis : visibleChunksOf [Chunk.mk 0 1 0, Chunk.mk 2 3 1] 3 =
      [Chunk.mk 0 1 0, Chunk.mk 2 3 1] := by
    unfold visibleChunksOf visibleChunk
    rw [List.filter_cons, List.filter_cons, List.filter_nil]
    norm_num
  refine ⟨?_, by norm_num, ?_, by norm_num⟩
  · intro c hc
    fin_cases hc <;> norm_num [clipStart, clipStop]
  · unfold getPixelPositionForTime
    rw [if_neg (by norm_num), if_neg (by rw [hvis]; simp)]
    rw [hvis]
    unfold pixelWalk
    rw [if_neg (by norm_num [clipStart, clipStop])]
    unfold pixelWalk
    rw [if_neg (by norm_num [clipStart, clipStop])]
    rfl

end AudioCropper
